import Mathlib

/-!
Verification development for the Aozora corpus builder (aozora.py).

The Python source is shallowly embedded: Python strings become `String`,
Python `dict` (insertion ordered) becomes an association list, the CSV
table becomes `List (List String)`, exceptions become `Except PyErr`, and
the external collaborators declared out of scope by the design document
(the HTML parse-tree library and the MeCab tokenizer) become explicit
black-box structures (`SoupParser`, the `tokenize` field of `Env`).
-/

/-! ## Python string primitives -/

/-- Python `str.lstrip(chars)`: removes the longest leading run of
characters that belong to the character SET of `chars` (not the prefix
`chars` itself).  This is the semantics of `lstrip` used at
aozora.py:66,114,133. -/
def pyLstrip (chars s : String) : String :=
  ⟨s.data.dropWhile (fun ch => decide (ch ∈ chars.data))⟩

/-- Python `s.split(sep)[0]` for a non-empty separator: the text before
the first occurrence of `sep` (all of `s` when `sep` does not occur). -/
def splitFirstAux (sep : List Char) : List Char → List Char
  | [] => []
  | c :: rest =>
    if sep.isPrefixOf (c :: rest) then []
    else c :: splitFirstAux sep rest

/-- String wrapper for `splitFirstAux`. -/
def pySplitFirst (sep s : String) : String :=
  ⟨splitFirstAux sep.data s.data⟩

/-- Substring test on character lists: `containsAux n h = true` iff `n`
occurs contiguously inside `h`. -/
def containsAux (n : List Char) : List Char → Bool
  | [] => n.isEmpty
  | c :: rest => n.isPrefixOf (c :: rest) || containsAux n rest

/-- Python `needle in hay` (substring containment). -/
def pyContains (needle hay : String) : Bool :=
  containsAux needle.data hay.data

/-- One step of Python `str.replace`: fuel-indexed scan replacing
non-overlapping occurrences of `pat` left to right. -/
def replaceFuel (pat repl : List Char) : Nat → List Char → List Char
  | _, [] => []
  | 0, s => s
  | fuel + 1, c :: rest =>
    if !pat.isEmpty && pat.isPrefixOf (c :: rest) then
      repl ++ replaceFuel pat repl fuel ((c :: rest).drop pat.length)
    else
      c :: replaceFuel pat repl fuel rest

/-- Python `s.replace(pat, repl)` for non-empty `pat`. -/
def pyReplace (pat repl s : String) : String :=
  ⟨replaceFuel pat.data repl.data s.data.length s.data⟩

/-- Python `s.split("\n")`: list of lines (an empty string yields one
empty line, a trailing newline yields a trailing empty line). -/
def splitNLAux : List Char → List (List Char)
  | [] => [[]]
  | c :: rest =>
    match splitNLAux rest with
    | [] => [[c]]
    | h :: t => if c = '\n' then [] :: h :: t else (c :: h) :: t

/-- String wrapper for `splitNLAux`. -/
def pySplitNL (s : String) : List String :=
  (splitNLAux s.data).map (fun l => ⟨l⟩)

/-- Python `str.strip()` restricted to the whitespace characters the
modelled texts use. -/
def pyStrip (s : String) : String :=
  ⟨((s.data.dropWhile Char.isWhitespace).reverse.dropWhile Char.isWhitespace).reverse⟩

/-- Spec-side definition: removal of `pre` as an exact prefix of `s`
(the string is returned unchanged when `pre` is not a prefix).  This is
what the specification's words "removing the prefix from the URL" and
"base-fragment preserved character for character" denote; it is compared
against the `lstrip`-based code. -/
def removePrefixSpec (pre s : String) : String :=
  if pre.data.isPrefixOf s.data then ⟨s.data.drop pre.data.length⟩ else s

/-! ## The regex machinery of aozora.py

Both compiled patterns of aozora.py have the shape
`A` `.*?` `B` `.*?` `C` for string literals `A`, `B`, `C`:

* `ruby_pattern     = "<ruby><rb>" .*? "</rb><rp>" .*? "</ruby>"`
* `ruby_pattern_old = "<!R>"       .*? "（"        .*? "）"`

`.` does not match a newline, and the lazy stars backtrack: the first
star takes the smallest number of characters for which the remainder of
the pattern can match, then the second star takes the smallest number.
`re.sub` scans left to right, replacing non-overlapping matches. -/

/-- Find the earliest occurrence of the literal `lit` in `s` such that
the text before it is newline-free; returns that text and the text after
the occurrence. -/
def findLit (lit : List Char) : List Char → Option (List Char × List Char)
  | [] => none
  | c :: rest =>
    if lit.isPrefixOf (c :: rest) then some ([], (c :: rest).drop lit.length)
    else if c = '\n' then none
    else
      match findLit lit rest with
      | some (pre, post) => some (c :: pre, post)
      | none => none

/-- Backtracking search for `.*? B .*? C` at the start of the input:
returns the lexicographically smallest `(x1, x2)` with
`input = x1 ++ B ++ x2 ++ C ++ rest` and `x1`, `x2` newline-free. -/
def searchBC (B C : List Char) : List Char → Option (List Char × List Char × List Char)
  | [] => none
  | c :: rest =>
    match
      (if B.isPrefixOf (c :: rest) then
        match findLit C ((c :: rest).drop B.length) with
        | some (x2, r) => some (([] : List Char), x2, r)
        | none => none
      else none) with
    | some res => some res
    | none =>
      if c = '\n' then none
      else
        match searchBC B C rest with
        | some (x1, x2, r) => some (c :: x1, x2, r)
        | none => none

/-- Match the pattern `A .*? B .*? C` at the start of `s`; returns the
matched text (group 0) and the remainder of `s` after the match. -/
def matchAt (A B C : List Char) (s : List Char) : Option (List Char × List Char) :=
  if A.isPrefixOf s then
    match searchBC B C (s.drop A.length) with
    | some (x1, x2, rest) => some (A ++ x1 ++ B ++ x2 ++ C, rest)
    | none => none
  else none

/-- `re.sub` scan: at each position try to match; on a match emit the
replacement and continue after the match, otherwise emit the character
and move one position right. -/
def subScan (A B C : List Char) (repl : List Char → List Char) :
    Nat → List Char → List Char
  | _, [] => []
  | 0, s => s
  | fuel + 1, c :: rest =>
    match matchAt A B C (c :: rest) with
    | some (m, after) => repl m ++ subScan A B C repl fuel after
    | none => c :: subScan A B C repl fuel rest

/-! ## Ruby stripping (aozora.py lines 23-26, 72-134) -/

/-- `ruby["start"]` in aozora.py. -/
def ruby_start : String := "<ruby><rb>"

/-- `ruby["end"]` in aozora.py. -/
def ruby_end : String := "</rb>"

/-- `ruby_old["start"]` in aozora.py. -/
def ruby_old_start : String := "<!R>"

/-- `ruby_old["end"]` in aozora.py (full-width open parenthesis). -/
def ruby_old_end : String := "（"

/-- aozora.py `ruby_replace`: replacement callback for the modern
pattern, `matchobj.group(0).lstrip(ruby["start"]).split(ruby["end"])[0]`. -/
def ruby_replace (m : String) : String :=
  pySplitFirst ruby_end (pyLstrip ruby_start m)

/-- aozora.py `ruby_replace_old`: replacement callback for the legacy
pattern, `matchobj.group(0).lstrip(ruby_old["start"]).split(ruby_old["end"])[0]`. -/
def ruby_replace_old (m : String) : String :=
  pySplitFirst ruby_old_end (pyLstrip ruby_old_start m)

/-- `re.sub(ruby_pattern, ruby_replace, text)`. -/
def sub_ruby_pattern (text : String) : String :=
  ⟨subScan "<ruby><rb>".data "</rb><rp>".data "</ruby>".data
    (fun m => (ruby_replace ⟨m⟩).data) text.data.length text.data⟩

/-- `re.sub(ruby_pattern_old, ruby_replace_old, text)`. -/
def sub_ruby_pattern_old (text : String) : String :=
  ⟨subScan "<!R>".data "（".data "）".data
    (fun m => (ruby_replace_old ⟨m⟩).data) text.data.length text.data⟩

/-- aozora.py `strip_ruby`: dialect detection and substitution. -/
def strip_ruby (text : String) : String :=
  if pyContains ruby_start text then sub_ruby_pattern text
  else if pyContains ruby_old_start text then sub_ruby_pattern_old text
  else text

/-! ## Structural text extractor (aozora.py `to_plain_text`, lines 137-167)

The HTML parse-tree library (Beautiful Soup with html5lib) is an external
collaborator that the design document treats as a black box providing
"select by CSS class", "find first matching tag" and "extract text
content"; it is modelled as an abstract `SoupParser`.  A bs4 `Tag` is
always truthy, so Python `if soup:` on the result of `find("body")`
distinguishes exactly `Some`/`None`. -/

/-- A parse-tree element, abstracted to its flattened text content. -/
structure Node where
  text : String
deriving DecidableEq, Repr

/-- The black-box parse-tree library interface: for a given markup string,
the elements whose class attribute is `main_text` (in document order), and
the first `body` element if any. -/
structure SoupParser where
  selectMainText : String → List Node
  findBody : String → Option Node

/-- aozora.py `to_plain_text`: delete `<br />`, then return the text of
the unique `.main_text` element, else the text of the first `body`
element, else the empty string. -/
def to_plain_text (P : SoupParser) (html_text : String) : String :=
  let t := pyReplace "<br />" "" html_text
  let soup := P.selectMainText t
  if soup.length = 1 then (soup.getD 0 ⟨""⟩).text
  else if soup.length = 0 then
    match P.findBody t with
    | some b => b.text
    | none => ""
  else ""

/-- Spec-side restatement of the extractor contract (section 4.2 of the
design document), written by cases on the list of main-text matches. -/
def extract_body_spec (P : SoupParser) (html : String) : String :=
  let doc := pyReplace "<br />" "" html
  match P.selectMainText doc with
  | [e] => e.text
  | [] =>
    match P.findBody doc with
    | some b => b.text
    | none => ""
  | _ => ""

/-! ## Metadata index builder (aozora.py `init_metadata`, lines 32-69) -/

/-- The exceptions the modelled fragments can raise. -/
inductive PyErr where
  /-- `list.index` misses: the configured column is absent (SchemaError). -/
  | valueError : PyErr
  /-- `next` on an empty reader. -/
  | stopIteration : PyErr
  /-- `row[html_column]` out of range. -/
  | indexError : PyErr
  /-- A fault while reading a file. -/
  | ioError : String → PyErr
  /-- A fault raised by the tokenizer. -/
  | parseError : String → PyErr
deriving DecidableEq, Repr

/-- FileID derivation at aozora.py:66: `row[html_column].lstrip(source_url)`. -/
def fileIdOf (source_url url : String) : String :=
  pyLstrip source_url url

/-- The FileID a data row contributes: `none` when the origin column is
out of range or does not contain the source prefix. -/
def rowFid (source_url : String) (col : Nat) (row : List String) : Option String :=
  match row.get? col with
  | none => none
  | some url => if pyContains source_url url then some (fileIdOf source_url url) else none

/-- The row loop of `init_metadata` (aozora.py:63-68), threading the
insertion-ordered dictionary as an association list. -/
def init_rows (source_url : String) (col : Nat) :
    List (List String) → List (String × List String) →
    Except PyErr (List (String × List String))
  | [], md => .ok md
  | row :: rest, md =>
    match row.get? col with
    | none => .error .indexError
    | some url =>
      if pyContains source_url url then
        if md.any (fun p => p.1 == fileIdOf source_url url) then
          init_rows source_url col rest md
        else init_rows source_url col rest (md ++ [(fileIdOf source_url url, row)])
      else init_rows source_url col rest md

/-- aozora.py `init_metadata`: header handling then the row loop.  The
CSV file is abstracted to its list of rows. -/
def init_metadata (source_url source_path : String) (table : List (List String)) :
    Except PyErr (List (String × List String)) :=
  match table with
  | [] => .error .stopIteration
  | header_row :: rows =>
    match header_row.findIdx? (fun s => s == source_path) with
    | none => .error .valueError
    | some col =>
      init_rows source_url col rows [("header", header_row ++ ["Tokenized Filename"])]

/-! ## Corpus driver (aozora.py `main`, lines 170-214) -/

/-- The external world of one run: the local file tree (path test and
lenient Shift-JIS read), the parse-tree library and the MeCab tokenizer.
Reading and tokenizing may raise. -/
structure Env where
  isFile : String → Bool
  readFile : String → Except PyErr String
  parser : SoupParser
  tokenize : String → Except PyErr String

/-- Mutable state of the driver loop: the metadata dictionary and the
files written so far (name, content). -/
structure RunState where
  metadata : List (String × List String)
  outputs : List (String × String)

/-- `local_path` in aozora.py, prepended to a FileID (`Path.joinpath`). -/
def localPathFor (fid : String) : String :=
  "aozorabunko_html/cards/" ++ fid

/-- Output filename derivation at aozora.py:201-203:
swap `html` to `txt`, swap `/` to `-`, prepend `t-`. -/
def out_filename_of (fid : String) : String :=
  "t-" ++ pyReplace "/" "-" (pyReplace "html" "txt" fid)

/-- Append one value to the row stored under key `k` (Python
`metadata[filename].append(out_filename)`); keys and order unchanged. -/
def dictAppendAt (m : List (String × List String)) (k x : String) :
    List (String × List String) :=
  m.map (fun p => if p.1 == k then (p.1, p.2 ++ [x]) else p)

/-- Writing a file: overwrites the previous content when the name was
already written, otherwise appends. -/
def fsWrite (outs : List (String × String)) (name content : String) :
    List (String × String) :=
  if outs.any (fun p => p.1 == name) then
    outs.map (fun p => if p.1 == name then (name, content) else p)
  else outs ++ [(name, content)]

/-- aozora.py:196-198: split into lines, tokenize each line, strip each
result, rejoin with newlines, strip the whole. -/
def tokenize_text (env : Env) (text : String) : Except PyErr String := do
  let parsed ← (pySplitNL text).mapM (fun line => do
    let p ← env.tokenize line
    pure (pyStrip p))
  pure (pyStrip (String.intercalate "\n" parsed))

/-- One iteration of the driver loop (aozora.py:181-207) for the key
`filename`, including the reserved header key, exactly as the Python
loop visits it. -/
def process_file (env : Env) (st : RunState) (filename : String) :
    Except PyErr RunState :=
  if env.isFile (localPathFor filename) then
    match env.readFile (localPathFor filename) with
    | .error e => .error e
    | .ok raw =>
      if to_plain_text env.parser (strip_ruby raw) ≠ "" then
        match tokenize_text env (to_plain_text env.parser (strip_ruby raw)) with
        | .error e => .error e
        | .ok parsed_text =>
          .ok { metadata := dictAppendAt st.metadata filename (out_filename_of filename),
                outputs := fsWrite st.outputs (out_filename_of filename) parsed_text }
      else .ok st
  else .ok st

/-- The driver loop over the dictionary keys in insertion order. -/
def runLoop (env : Env) : List (String × List String) → RunState →
    Except PyErr RunState
  | [], st => .ok st
  | p :: rest, st =>
    match process_file env st p.1 with
    | .error e => .error e
    | .ok st1 => runLoop env rest st1

/-- aozora.py `main`: build the index, run the loop over its keys, then
serialize (header row popped first, remaining rows in insertion order).
The run yields the serialized CSV rows and the written output files. -/
def main_run (env : Env) (source_url source_path : String)
    (table : List (List String)) :
    Except PyErr (List (List String) × List (String × String)) :=
  match init_metadata source_url source_path table with
  | .error e => .error e
  | .ok md =>
    match runLoop env md ⟨md, []⟩ with
    | .error e => .error e
    | .ok st =>
      let header := ((st.metadata.find? (fun p => p.1 == "header")).map Prod.snd).getD []
      let rest := st.metadata.filter (fun p => p.1 != "header")
      .ok (header :: rest.map Prod.snd, st.outputs)

/-- State-independent test for whether the loop body appends the derived
value for a given key: the local file exists, reads without fault, and
the ruby-stripped, markup-stripped text is non-empty.  This mirrors the
guard structure of `process_file`, whose append/skip decision does not
depend on the loop state. -/
def appends_value (env : Env) (filename : String) : Bool :=
  env.isFile (localPathFor filename) &&
    match env.readFile (localPathFor filename) with
    | .error _ => false
    | .ok raw => decide (to_plain_text env.parser (strip_ruby raw) ≠ "")

/-- The values the whole loop appends to the row stored under key `k`,
given the list of visited dictionary entries: one derived output
filename per visited entry with key `k` that passes the
`appends_value` guard. -/
def loopAppends (env : Env) : List (String × List String) → String → List String
  | [], _ => []
  | p :: rest, k =>
    if p.1 == k && appends_value env p.1 then
      out_filename_of p.1 :: loopAppends env rest k
    else loopAppends env rest k

/-! ## Concrete environments for counterexamples and witnesses -/

/-- A black-box parser with no `.main_text` elements whose `body` element
flattens to the whole markup string: the legacy no-container case. -/
def bodyParser : SoupParser :=
  { selectMainText := fun _ => [], findBody := fun t => some ⟨t⟩ }

/-- An environment whose single local file raises on read. -/
def envReadFail : Env :=
  { isFile := fun p => p == "aozorabunko_html/cards/1.html",
    readFile := fun _ => .error (.ioError "disk"),
    parser := bodyParser,
    tokenize := fun l => .ok l }

/-- An environment whose single local file reads fine but whose
tokenizer raises. -/
def envTokFail : Env :=
  { isFile := fun p => p == "aozorabunko_html/cards/1.html",
    readFile := fun _ => .ok "hello",
    parser := bodyParser,
    tokenize := fun _ => .error (.parseError "tok") }

/-- Two local files of which the first raises on read. -/
def envFirstReadFail : Env :=
  { isFile := fun p => p == "aozorabunko_html/cards/1.html" || p == "aozorabunko_html/cards/2.html",
    readFile := fun p => if p == "aozorabunko_html/cards/1.html" then .error (.ioError "boom") else .ok "hi",
    parser := bodyParser,
    tokenize := fun l => .ok l }

/-- A file tree that contains a regular file named `header` under the
local root, and nothing else. -/
def envHeaderFile : Env :=
  { isFile := fun p => p == "aozorabunko_html/cards/header",
    readFile := fun _ => .ok "<p>hi</p>",
    parser := bodyParser,
    tokenize := fun l => .ok l }

/-- An empty file tree. -/
def envEmptyTree : Env :=
  { isFile := fun _ => false,
    readFile := fun _ => .error (.ioError "absent"),
    parser := bodyParser,
    tokenize := fun l => .ok l }

/-- One present local file that processes successfully. -/
def envOneGood : Env :=
  { isFile := fun p => p == "aozorabunko_html/cards/1.html",
    readFile := fun _ => .ok "hi",
    parser := bodyParser,
    tokenize := fun l => .ok l }

/-- Two present local files whose FileIDs collide after the output
filename derivation. -/
def envCollide : Env :=
  { isFile := fun p => p == "aozorabunko_html/cards/a/b.html" || p == "aozorabunko_html/cards/a-b.html",
    readFile := fun p => if p == "aozorabunko_html/cards/a/b.html" then .ok "A" else .ok "B",
    parser := bodyParser,
    tokenize := fun l => .ok l }

/-! ## General lemmas -/

theorem containsAux_eq_true_iff (n : List Char) :
    ∀ h, containsAux n h = true ↔ n <:+: h := by
  intro h
  induction h with
  | nil => simp [containsAux, List.isEmpty_iff]
  | cons c rest ih => simp [containsAux, List.infix_cons_iff, ih]

theorem pyContains_iff (n h : String) :
    pyContains n h = true ↔ n.data <:+: h.data :=
  containsAux_eq_true_iff n.data h.data

/-! ## Claim theorems: ruby stripping -/

/-- Claim C5: `strip_ruby` applies exactly one rule set, decided globally
and in fixed order: the Modern substitution when the Modern opening
sequence occurs anywhere in the input, else the Legacy substitution when
the Legacy opening sequence occurs, else the input unchanged. -/
theorem c5_dialect_order (t : String) :
    strip_ruby t =
      if ruby_start.data <:+: t.data then sub_ruby_pattern t
      else if ruby_old_start.data <:+: t.data then sub_ruby_pattern_old t
      else t := by
  by_cases h1 : ruby_start.data <:+: t.data
  · rw [if_pos h1]
    unfold strip_ruby
    rw [if_pos ((pyContains_iff _ _).mpr h1)]
  · rw [if_neg h1]
    unfold strip_ruby
    rw [if_neg (fun hc => h1 ((pyContains_iff _ _).mp hc))]
    by_cases h2 : ruby_old_start.data <:+: t.data
    · rw [if_pos h2, if_pos ((pyContains_iff _ _).mpr h2)]
    · rw [if_neg h2, if_neg (fun hc => h2 ((pyContains_iff _ _).mp hc))]

/-- Claim C3 (code bug): on a Modern-dialect document whose base fragment
begins with a character of the set used by `lstrip` - here the base
fragment `uni` - the code returns `ni`, not the base fragment between the
ruby-open sequence and the first rb-close marker, which is `uni`.  The
second conjunct computes the base fragment the claim (and the docstring
of `ruby_replace`) promises, via exact prefix removal. -/
theorem c3_modern_base_lost :
    strip_ruby "<ruby><rb>uni</rb><rp>（</rp><rt>ユニ</rt><rp>）</rp></ruby>" = "ni" ∧
    pySplitFirst ruby_end
      (removePrefixSpec ruby_start
        "<ruby><rb>uni</rb><rp>（</rp><rt>ユニ</rt><rp>）</rp></ruby>") = "uni" ∧
    ("ni" : String) ≠ "uni" :=
  ⟨rfl, rfl, by decide⟩

/-- Claim C4 (code bug): on a Legacy-dialect document whose base fragment
begins with a character of the set `<`, `!`, `R`, `>` - here the base
fragment `R2` - the code returns `2`, not the text between the marker and
the full-width open parenthesis, which is `R2`. -/
theorem c4_legacy_base_lost :
    strip_ruby "<!R>R2（r2）" = "2" ∧
    pySplitFirst ruby_old_end (removePrefixSpec ruby_old_start "<!R>R2（r2）") = "R2" ∧
    ("2" : String) ≠ "R2" :=
  ⟨rfl, rfl, by decide⟩

/-! ## Claim theorems: structural text extractor -/

/-- Claim C6: `to_plain_text` returns the flattened text of the unique
main-text-class element when exactly one exists, the flattened text of
the first body element (or the empty string when there is no body) when
none exists, and the empty string when more than one exists - stated as
equivalence with the spec-side case analysis `extract_body_spec`, for
every black-box parser and every input document. -/
theorem c6_extractor_cases (P : SoupParser) (h : String) :
    to_plain_text P h = extract_body_spec P h := by
  unfold to_plain_text extract_body_spec
  rcases hs : P.selectMainText (pyReplace "<br />" "" h) with _ | ⟨a, _ | ⟨b, t2⟩⟩ <;>
    simp [hs]

/-! ## Claim theorems: closed runs of the driver -/

/-- Claim C1 counterexample: a per-file fault that is not the schema
error - an I/O error while reading the single listed file - aborts the
whole run: `main` propagates the exception and the final metadata table
is never serialized (the result is the error, not a table). -/
theorem c1_counterexample :
    main_run envReadFail "x" "URL" [["URL"], ["x1.html"]] =
      .error (.ioError "disk") := rfl

/-- Claim C2 counterexample: for origin URL
`https://example.org/cards/aozora.html` and configured prefix
`https://example.org/cards`, the stored FileID is `zora.html`: `lstrip`
removes every leading character drawn from the character set of the
prefix, so the remainder after the prefix (`/aozora.html`, or
`aozora.html` with the separator dropped) is NOT preserved character for
character. -/
theorem c2_counterexample :
    init_metadata "https://example.org/cards" "URL"
        [["URL"], ["https://example.org/cards/aozora.html"]] =
      .ok [("header", ["URL", "Tokenized Filename"]),
           ("zora.html", ["https://example.org/cards/aozora.html"])] ∧
    removePrefixSpec "https://example.org/cards"
        "https://example.org/cards/aozora.html" = "/aozora.html" ∧
    ("zora.html" : String) ≠ "/aozora.html" ∧
    ("zora.html" : String) ≠ "aozora.html" :=
  ⟨rfl, rfl, by decide, by decide⟩

/-- Claim C7 counterexample: with two listed files of which the first
raises on read, the run aborts with that exception; no output table is
serialized at all, so in particular no row for the failed file (nor for
the following, unprocessed file) is emitted. -/
theorem c7_counterexample :
    main_run envFirstReadFail "x" "URL" [["URL"], ["x1.html"], ["x2.html"]] =
      .error (.ioError "boom") := rfl

/-- Claim C8 counterexample: a data row whose origin URL contains the
configured prefix and whose computed FileID is the literal string
`header` is silently discarded - the FileID collides with the reserved
header key, so the built index contains no (non-header) key for the row
even though the row matches the prefix. -/
theorem c8_counterexample :
    init_metadata "x" "URL" [["URL"], ["xheader"]] =
      .ok [("header", ["URL", "Tokenized Filename"])] ∧
    rowFid "x" 0 ["xheader"] = some "header" :=
  ⟨rfl, rfl⟩

/-- Claim C9 counterexample: the per-file loop does treat the reserved
header entry as a FileID.  With a local file tree containing a regular
file named `header` (and an otherwise empty metadata table), the driver
reads and processes it, appends an output filename `t-header` to the
header row, and writes an output file derived from the header key. -/
theorem c9_counterexample :
    main_run envHeaderFile "x" "URL" [["URL"]] =
      .ok ([["URL", "Tokenized Filename", "t-header"]],
           [("t-header", "<p>hi</p>")]) := rfl

/-- Claim C10: the output-filename derivation is not injective - the
distinct FileIDs `a/b.html` and `a-b.html` derive the same output name
`t-a-b.txt` - and in a run where both corresponding works exist, both
metadata rows record that same derived value while the file written for
the earlier work is overwritten by the later one (a single output file
remains, holding the second work's content). -/
theorem c10_output_name_collision :
    ("a/b.html" : String) ≠ "a-b.html" ∧
    out_filename_of "a/b.html" = out_filename_of "a-b.html" ∧
    main_run envCollide "x" "URL" [["URL"], ["xa/b.html"], ["xa-b.html"]] =
      .ok ([["URL", "Tokenized Filename"],
            ["xa/b.html", "t-a-b.txt"],
            ["xa-b.html", "t-a-b.txt"]],
           [("t-a-b.txt", "B")]) :=
  ⟨by decide, rfl, rfl⟩

/-! ## Evolution of the metadata dictionary under the driver loop -/

/-- `m2` is `m` with keys and order unchanged and each row possibly
extended on the right (the only mutation the loop performs on rows). -/
def RowsExtend (m m2 : List (String × List String)) : Prop :=
  m.length = m2.length ∧
  ∀ (i : Nat) (k : String) (v : List String),
    m[i]? = some (k, v) → ∃ ext, m2[i]? = some (k, v ++ ext)

theorem rowsExtend_refl (m : List (String × List String)) : RowsExtend m m :=
  ⟨rfl, fun _ _ _ h => ⟨[], by simpa using h⟩⟩

theorem rowsExtend_trans {a b c : List (String × List String)}
    (h1 : RowsExtend a b) (h2 : RowsExtend b c) : RowsExtend a c := by
  obtain ⟨hl1, h1⟩ := h1
  obtain ⟨hl2, h2⟩ := h2
  refine ⟨hl1.trans hl2, fun i k v h => ?_⟩
  obtain ⟨e1, hb⟩ := h1 i k v h
  obtain ⟨e2, hc⟩ := h2 i k (v ++ e1) hb
  exact ⟨e1 ++ e2, by rw [hc, List.append_assoc]⟩

theorem rowsExtend_dictAppendAt (m : List (String × List String)) (k x : String) :
    RowsExtend m (dictAppendAt m k x) := by
  refine ⟨by simp [dictAppendAt], fun i k0 v h => ?_⟩
  unfold dictAppendAt
  rw [List.getElem?_map, h]
  by_cases hk : k0 = k
  · exact ⟨[x], by simp [hk]⟩
  · exact ⟨[], by simp [hk]⟩

theorem process_file_metadata (env : Env) (st : RunState) (f : String)
    (st' : RunState) (h : process_file env st f = .ok st') :
    st'.metadata = st.metadata ∨
      ∃ x, st'.metadata = dictAppendAt st.metadata f x := by
  unfold process_file at h
  split at h
  · split at h
    · cases h
    · split at h
      · split at h
        · cases h
        · cases h; exact Or.inr ⟨out_filename_of f, rfl⟩
      · cases h; exact Or.inl rfl
  · cases h; exact Or.inl rfl

theorem runLoop_rowsExtend (env : Env) :
    ∀ l st st', runLoop env l st = .ok st' →
      RowsExtend st.metadata st'.metadata := by
  intro l
  induction l with
  | nil =>
    intro st st' h
    unfold runLoop at h
    cases h
    exact rowsExtend_refl _
  | cons p rest ih =>
    intro st st' h
    unfold runLoop at h
    cases hp : process_file env st p.1 with
    | error e => rw [hp] at h; cases h
    | ok st1 =>
      rw [hp] at h
      have h2 := ih st1 st' h
      rcases process_file_metadata env st p.1 st1 hp with heq | ⟨x, heq⟩
      · rw [← heq]; exact h2
      · refine rowsExtend_trans ?_ h2
        rw [heq]
        exact rowsExtend_dictAppendAt st.metadata p.1 x

theorem runLoop_append_ok (env : Env) :
    ∀ l1 l2 st st1, runLoop env l1 st = .ok st1 →
      runLoop env (l1 ++ l2) st = runLoop env l2 st1 := by
  intro l1
  induction l1 with
  | nil =>
    intro l2 st st1 h
    unfold runLoop at h
    cases h
    rfl
  | cons p t ih =>
    intro l2 st st1 h
    rw [List.cons_append]
    have hhead : runLoop env (p :: (t ++ l2)) st =
        match process_file env st p.1 with
        | .error e => .error e
        | .ok s => runLoop env (t ++ l2) s := rfl
    have h' : (match process_file env st p.1 with
        | Except.error e => (Except.error e : Except PyErr RunState)
        | Except.ok s => runLoop env t s) = Except.ok st1 := h
    rw [hhead]
    cases hp : process_file env st p.1 with
    | error e =>
      simp only [hp] at h'
      cases h'
    | ok s =>
      simp only [hp] at h'
      show runLoop env (t ++ l2) s = runLoop env l2 st1
      exact ih l2 s st1 h'

theorem init_rows_shape (u : String) (col : Nat) :
    ∀ rows acc md, init_rows u col rows acc = .ok md →
      ∃ ext, md = acc ++ ext ∧
        ∀ p ∈ ext, acc.any (fun q => q.1 == p.1) = false := by
  intro rows
  induction rows with
  | nil =>
    intro acc md h
    unfold init_rows at h
    cases h
    exact ⟨[], by simp, by simp⟩
  | cons row rest ih =>
    intro acc md h
    unfold init_rows at h
    split at h
    next => cases h
    next url heq =>
      split at h
      · split at h
        · exact ih acc md h
        · next hin =>
          obtain ⟨ext, hmd, hext⟩ := ih _ md h
          refine ⟨(fileIdOf u url, row) :: ext, ?_, ?_⟩
          · rw [hmd]; simp
          · intro p hp
            rcases List.mem_cons.mp hp with hpe | hpe
            · subst hpe
              exact Bool.eq_false_iff.mpr hin
            · have hx := hext p hpe
              simp only [List.any_append] at hx
              exact (Bool.or_eq_false_iff.mp hx).1
      · exact ih acc md h

/-- Claim C1 (amended): per-file faults are NOT caught.  Whenever some
listed FileID is reached with the loop state `st` and its processing
raises an exception `e`, the whole run evaluates to that exception: the
driver does not mark the file and continue, and the final metadata table
is never serialized. -/
theorem c1_per_file_fault_aborts (env : Env) (u c : String)
    (t : List (List String)) (md l1 : List (String × List String))
    (p : String × List String) (l2 : List (String × List String))
    (st : RunState) (e : PyErr)
    (hinit : init_metadata u c t = .ok md)
    (hsplit : md = l1 ++ p :: l2)
    (hpre : runLoop env l1 ⟨md, []⟩ = .ok st)
    (hfail : process_file env st p.1 = .error e) :
    main_run env u c t = .error e := by
  subst hsplit
  have hloop : runLoop env (l1 ++ p :: l2) ⟨l1 ++ p :: l2, []⟩ = .error e := by
    rw [runLoop_append_ok env l1 (p :: l2) _ st hpre]
    have hcons : runLoop env (p :: l2) st =
        match process_file env st p.1 with
        | Except.error e => (Except.error e : Except PyErr RunState)
        | Except.ok s => runLoop env l2 s := rfl
    rw [hcons, hfail]
  unfold main_run
  rw [hinit]
  simp only [hloop]

/-- Witness for the amended C1: a concrete run in which the single
listed file is present but the tokenizer raises; the run evaluates to
the tokenizer's exception. -/
theorem c1_witness :
    main_run envTokFail "x" "URL" [["URL"], ["x1.html"]] =
      .error (.parseError "tok") :=
  c1_per_file_fault_aborts envTokFail "x" "URL" [["URL"], ["x1.html"]]
    [("header", ["URL", "Tokenized Filename"]), ("1.html", ["x1.html"])]
    [("header", ["URL", "Tokenized Filename"])]
    ("1.html", ["x1.html"]) []
    ⟨[("header", ["URL", "Tokenized Filename"]), ("1.html", ["x1.html"])], []⟩
    (.parseError "tok") rfl rfl rfl rfl

theorem find_header_dictAppendAt (m : List (String × List String)) (k x : String)
    (hk : k ≠ "header") :
    (dictAppendAt m k x).find? (fun p => p.1 == "header") =
      m.find? (fun p => p.1 == "header") := by
  induction m with
  | nil => rfl
  | cons p rest ih =>
    unfold dictAppendAt at ih ⊢
    rw [List.map_cons, List.find?_cons, List.find?_cons]
    by_cases hp1 : p.1 = k
    · have e1 : ((if p.1 == k then (p.1, p.2 ++ [x]) else p).1 == "header") = false := by
        simp [hp1, hk]
      have e2 : (p.1 == "header") = false := by simp [hp1, hk]
      simp only [e1, e2]
      exact ih
    · have e0 : (if p.1 == k then (p.1, p.2 ++ [x]) else p) = p := by simp [hp1]
      rw [e0]
      cases hb : (p.1 == "header") with
      | true => simp only [hb]
      | false => simp only [hb]; exact ih

theorem runLoop_find_header (env : Env)
    (hh : env.isFile (localPathFor "header") = false) :
    ∀ l st st', runLoop env l st = .ok st' →
      st'.metadata.find? (fun p => p.1 == "header") =
        st.metadata.find? (fun p => p.1 == "header") := by
  intro l
  induction l with
  | nil =>
    intro st st' h
    unfold runLoop at h
    cases h
    rfl
  | cons p rest ih =>
    intro st st' h
    have hcons : runLoop env (p :: rest) st =
        match process_file env st p.1 with
        | Except.error e => (Except.error e : Except PyErr RunState)
        | Except.ok s => runLoop env rest s := rfl
    rw [hcons] at h
    cases hp : process_file env st p.1 with
    | error e => simp only [hp] at h; cases h
    | ok st1 =>
      simp only [hp] at h
      have h2 := ih st1 st' h
      rw [h2]
      by_cases hkey : p.1 = "header"
      · have hst : st1 = st := by
          unfold process_file at hp
          rw [hkey, hh] at hp
          simp at hp
          exact hp.symm
        rw [hst]
      · rcases process_file_metadata env st p.1 st1 hp with heq | ⟨x, heq⟩
        · rw [heq]
        · rw [heq, find_header_dictAppendAt _ _ _ hkey]

/-- Claim C9 (amended): the per-file loop iterates over the reserved
header entry like any FileID and resolves its local path; whenever that
path is not a regular file (the expected tree state) the header entry is
skipped, so in the serialized table the header row is exactly the input
header with the derived column name appended at index-build time. -/
theorem c9_header_only_buildtime_append (env : Env) (u c : String)
    (hdr : List String) (rows : List (List String))
    (csv : List (List String)) (outs : List (String × String))
    (hnofile : env.isFile (localPathFor "header") = false)
    (hok : main_run env u c (hdr :: rows) = .ok (csv, outs)) :
    csv.head? = some (hdr ++ ["Tokenized Filename"]) := by
  unfold main_run init_metadata at hok
  cases hcol : hdr.findIdx? (fun s => s == c) with
  | none => simp only [hcol] at hok; cases hok
  | some col =>
    simp only [hcol] at hok
    cases hinit : init_rows u col rows [("header", hdr ++ ["Tokenized Filename"])] with
    | error e => simp only [hinit] at hok; cases hok
    | ok md =>
      simp only [hinit] at hok
      cases hloop : runLoop env md ⟨md, []⟩ with
      | error e => simp only [hloop] at hok; cases hok
      | ok st =>
        simp only [hloop] at hok
        have hfind : st.metadata.find? (fun p => p.1 == "header") =
            md.find? (fun p => p.1 == "header") := by
          simpa using runLoop_find_header env hnofile md ⟨md, []⟩ st hloop
        obtain ⟨ext, hmd, -⟩ := init_rows_shape u col rows _ md hinit
        have hmdfind : md.find? (fun p => p.1 == "header") =
            some ("header", hdr ++ ["Tokenized Filename"]) := by
          rw [hmd, List.singleton_append, List.find?_cons_of_pos _ (by simp)]
        rw [hfind, hmdfind] at hok
        cases hok
        rfl

/-- Witness for the amended C9: with an empty local tree and an
otherwise empty table, the serialized header row is exactly the input
header plus the derived column name. -/
theorem c9_witness :
    ([["URL", "Tokenized Filename"]] : List (List String)).head? =
      some (["URL"] ++ ["Tokenized Filename"]) :=
  c9_header_only_buildtime_append envEmptyTree "x" "URL" ["URL"] [] _ [] rfl rfl

theorem init_rows_nodup (u : String) (col : Nat) :
    ∀ rows acc md, (acc.map Prod.fst).Nodup → init_rows u col rows acc = .ok md →
      (md.map Prod.fst).Nodup := by
  intro rows
  induction rows with
  | nil =>
    intro acc md hn h
    unfold init_rows at h
    cases h
    exact hn
  | cons row rest ih =>
    intro acc md hn h
    unfold init_rows at h
    split at h
    next => cases h
    next url heq =>
      by_cases hc : pyContains u url = true
      · rw [if_pos hc] at h
        by_cases hin : acc.any (fun p => p.1 == fileIdOf u url) = true
        · rw [if_pos hin] at h
          exact ih acc md hn h
        · rw [if_neg hin] at h
          refine ih _ md ?_ h
          rw [List.map_append]
          refine List.Nodup.append hn (by simp) ?_
          intro a ha hb
          simp only [List.map_cons, List.map_nil, List.mem_singleton] at hb
          subst hb
          obtain ⟨p, hpmem, hpeq⟩ := List.mem_map.mp ha
          refine hin (List.any_eq_true.mpr ⟨p, hpmem, ?_⟩)
          simp [hpeq]
      · rw [if_neg hc] at h
        exact ih acc md hn h

theorem process_file_metadata_exact (env : Env) (st : RunState) (f : String)
    (st' : RunState) (h : process_file env st f = .ok st') :
    st'.metadata =
      if appends_value env f then
        dictAppendAt st.metadata f (out_filename_of f)
      else st.metadata := by
  unfold process_file at h
  by_cases hf : env.isFile (localPathFor f) = true
  · rw [if_pos hf] at h
    cases hr : env.readFile (localPathFor f) with
    | error e => simp only [hr] at h; cases h
    | ok raw =>
      simp only [hr] at h
      by_cases ht : to_plain_text env.parser (strip_ruby raw) ≠ ""
      · rw [if_pos ht] at h
        cases htok : tokenize_text env (to_plain_text env.parser (strip_ruby raw)) with
        | error e => simp only [htok] at h; cases h
        | ok pt =>
          simp only [htok] at h
          cases h
          have hav : appends_value env f = true := by
            unfold appends_value
            rw [hf, hr]
            simp [ht]
          rw [if_pos hav]
      · rw [if_neg ht] at h
        cases h
        have hav : appends_value env f = false := by
          unfold appends_value
          rw [hf, hr]
          simp at ht
          simp [ht]
        rw [hav]
        simp
  · rw [if_neg hf] at h
    cases h
    have hav : appends_value env f = false := by
      unfold appends_value
      rw [Bool.eq_false_iff.mpr hf]
      simp
    rw [hav]
    simp

theorem runLoop_exact (env : Env) :
    ∀ l st st', runLoop env l st = .ok st' →
      ∀ (i : Nat) (k : String) (v : List String),
        st.metadata[i]? = some (k, v) →
        st'.metadata[i]? = some (k, v ++ loopAppends env l k) := by
  intro l
  induction l with
  | nil =>
    intro st st' h i k v hi
    unfold runLoop at h
    cases h
    have hLA : loopAppends env [] k = [] := rfl
    rw [hLA]
    simpa using hi
  | cons p rest ih =>
    intro st st' h i k v hi
    have hcons : runLoop env (p :: rest) st =
        match process_file env st p.1 with
        | Except.error e => (Except.error e : Except PyErr RunState)
        | Except.ok s => runLoop env rest s := rfl
    rw [hcons] at h
    cases hp : process_file env st p.1 with
    | error e => simp only [hp] at h; cases h
    | ok st1 =>
      simp only [hp] at h
      have hex := process_file_metadata_exact env st p.1 st1 hp
      have hLA : loopAppends env (p :: rest) k =
          if p.1 == k && appends_value env p.1 then
            out_filename_of p.1 :: loopAppends env rest k
          else loopAppends env rest k := rfl
      by_cases hav : appends_value env p.1 = true
      · rw [if_pos hav] at hex
        have hi1 : st1.metadata[i]? =
            some (k, v ++ (if k = p.1 then [out_filename_of p.1] else [])) := by
          rw [hex]
          unfold dictAppendAt
          rw [List.getElem?_map, hi]
          by_cases hk : k = p.1
          · simp [hk]
          · simp [hk]
        have h2 := ih st1 st' h i k
          (v ++ (if k = p.1 then [out_filename_of p.1] else [])) hi1
        rw [h2, hLA]
        by_cases hk : k = p.1
        · have hbeq : (p.1 == k) = true := by simp [hk]
          rw [hbeq, hav]
          simp [hk]
        · have hbeq : (p.1 == k) = false := by
            simp only [beq_eq_false_iff_ne]
            exact fun hh => hk hh.symm
          rw [hbeq]
          simp [hk]
      · have havF : appends_value env p.1 = false := Bool.eq_false_iff.mpr hav
        rw [if_neg hav] at hex
        have h2 := ih st1 st' h i k v (by rw [hex]; exact hi)
        rw [h2, hLA, havF]
        simp

theorem loopAppends_of_not_mem (env : Env) :
    ∀ (l : List (String × List String)) (k : String),
      (∀ p ∈ l, p.1 ≠ k) → loopAppends env l k = [] := by
  intro l
  induction l with
  | nil => intro k h; rfl
  | cons p rest ih =>
    intro k h
    have hLA : loopAppends env (p :: rest) k =
        if p.1 == k && appends_value env p.1 then
          out_filename_of p.1 :: loopAppends env rest k
        else loopAppends env rest k := rfl
    have hne : (p.1 == k) = false := by
      simp only [beq_eq_false_iff_ne]
      exact h p (List.mem_cons_self p rest)
    rw [hLA, hne]
    simpa using ih k (fun q hq => h q (List.mem_cons_of_mem p hq))

theorem loopAppends_nodup (env : Env) :
    ∀ (l : List (String × List String)) (k : String),
      (l.map Prod.fst).Nodup → (∃ v, (k, v) ∈ l) →
      loopAppends env l k =
        if appends_value env k then [out_filename_of k] else [] := by
  intro l
  induction l with
  | nil =>
    intro k hn hex
    obtain ⟨v, hv⟩ := hex
    cases hv
  | cons p rest ih =>
    intro k hn hex
    obtain ⟨v, hv⟩ := hex
    rw [List.map_cons, List.nodup_cons] at hn
    obtain ⟨hnotin, hnrest⟩ := hn
    rcases List.mem_cons.mp hv with he | he
    · have hk : k = p.1 := congrArg Prod.fst he
      subst hk
      have hrest0 : loopAppends env rest p.1 = [] := by
        apply loopAppends_of_not_mem
        intro q hq hqk
        exact hnotin (List.mem_map.mpr ⟨q, hq, hqk⟩)
      have hLA : loopAppends env (p :: rest) p.1 =
          if p.1 == p.1 && appends_value env p.1 then
            out_filename_of p.1 :: loopAppends env rest p.1
          else loopAppends env rest p.1 := rfl
      rw [hLA, hrest0]
      by_cases hav : appends_value env p.1 = true
      · rw [hav]
        simp
      · have havF : appends_value env p.1 = false := Bool.eq_false_iff.mpr hav
        rw [havF]
        simp
    · have hkne : (p.1 == k) = false := by
        simp only [beq_eq_false_iff_ne]
        intro hh
        exact hnotin (List.mem_map.mpr ⟨(k, v), he, hh.symm⟩)
      have hLA : loopAppends env (p :: rest) k =
          if p.1 == k && appends_value env p.1 then
            out_filename_of p.1 :: loopAppends env rest k
          else loopAppends env rest k := rfl
      rw [hLA, hkne]
      simpa using ih k hnrest ⟨v, he⟩

/-- Claim C7 (amended): whenever a run completes (no per-file exception
was raised - a raised exception aborts the run with no table at all, see
the C1 theorems), the serialized table has exactly one row per entry of
the built index, in the index's insertion order (header entry first,
then the filtered input row order), and row `i` of the output is
EXACTLY row `i` of the built index with the derived output filename
appended when that FileID's local file exists and extracts non-empty
text, and exactly the original, unextended row otherwise - so missing
and unextractable files are emitted without a value in the derived
column. -/
theorem c7_serialization_order (env : Env) (u c : String)
    (hdr : List String) (rows : List (List String))
    (md : List (String × List String))
    (csv : List (List String)) (outs : List (String × String))
    (hinit : init_metadata u c (hdr :: rows) = .ok md)
    (hok : main_run env u c (hdr :: rows) = .ok (csv, outs)) :
    csv.length = md.length ∧
    ∀ (i : Nat) (k : String) (v : List String),
      md[i]? = some (k, v) →
      csv[i]? = some (v ++ (if appends_value env k then [out_filename_of k] else [])) := by
  have hnodup : (md.map Prod.fst).Nodup := by
    unfold init_metadata at hinit
    cases hcol : hdr.findIdx? (fun s => s == c) with
    | none => simp only [hcol] at hinit; cases hinit
    | some col =>
      simp only [hcol] at hinit
      exact init_rows_nodup u col rows _ md (by simp) hinit
  have hshape : ∃ ext, md = ("header", hdr ++ ["Tokenized Filename"]) :: ext ∧
      ∀ p ∈ ext, p.1 ≠ "header" := by
    unfold init_metadata at hinit
    cases hcol : hdr.findIdx? (fun s => s == c) with
    | none => simp only [hcol] at hinit; cases hinit
    | some col =>
      simp only [hcol] at hinit
      obtain ⟨ext, hmd, hext⟩ := init_rows_shape u col rows _ md hinit
      refine ⟨ext, by simpa using hmd, ?_⟩
      intro p hp
      have h2 : ¬ ("header" = p.1) := by simpa using hext p hp
      exact fun hq => h2 hq.symm
  obtain ⟨ext, hmd, hext⟩ := hshape
  unfold main_run at hok
  simp only [hinit] at hok
  cases hloop : runLoop env md ⟨md, []⟩ with
  | error e => simp only [hloop] at hok; cases hok
  | ok st =>
    simp only [hloop] at hok
    have hRE : RowsExtend md st.metadata := by
      simpa using runLoop_rowsExtend env md ⟨md, []⟩ st hloop
    obtain ⟨e0, h0⟩ := hRE.2 0 "header" (hdr ++ ["Tokenized Filename"])
      (by rw [hmd]; simp)
    cases hsm : st.metadata with
    | nil => rw [hsm] at h0; cases h0
    | cons q tl2 =>
      rw [hsm] at h0
      have hq : q = ("header", hdr ++ ["Tokenized Filename"] ++ e0) := by
        simpa using h0
      subst hq
      have htl2 : ∀ p ∈ tl2, p.1 ≠ "header" := by
        intro p hp
        obtain ⟨j, hj⟩ := List.mem_iff_getElem?.mp hp
        have hst : st.metadata[j + 1]? = some p := by rw [hsm]; simpa using hj
        have hjlen : j + 1 < md.length := by
          have hlen := hRE.1
          obtain ⟨hb, -⟩ := List.getElem?_eq_some_iff.mp hst
          omega
        obtain ⟨kj, vj, hmdj⟩ : ∃ k2 v2, md[j + 1]? = some (k2, v2) := by
          have hg := List.getElem?_eq_getElem hjlen
          refine ⟨md[j + 1].1, md[j + 1].2, ?_⟩
          rw [hg]
        obtain ⟨e2, hre⟩ := hRE.2 (j + 1) kj vj hmdj
        rw [hst] at hre
        have hp1 : p.1 = kj := by rw [Option.some.inj hre]
        have hmem : (kj, vj) ∈ ext := by
          have hextj : ext[j]? = some (kj, vj) := by
            rw [hmd] at hmdj
            simpa using hmdj
          exact List.mem_iff_getElem?.mpr ⟨j, hextj⟩
        rw [hp1]
        exact hext _ hmem
      have hfind2 : st.metadata.find? (fun p => p.1 == "header") =
          some ("header", hdr ++ ["Tokenized Filename"] ++ e0) := by
        rw [hsm, List.find?_cons_of_pos _ (by simp)]
      have hfilter : st.metadata.filter (fun p => p.1 != "header") = tl2 := by
        rw [hsm, List.filter_cons_of_neg (by simp)]
        exact List.filter_eq_self.mpr (fun a ha => by simpa using htl2 a ha)
      rw [hfind2, hfilter] at hok
      cases hok
      constructor
      · have hlen := hRE.1
        rw [hsm] at hlen
        simpa using hlen.symm
      · intro i k v hmi
        have hexact := runLoop_exact env md ⟨md, []⟩ st hloop i k v hmi
        have hform : ((((some ("header", hdr ++ ["Tokenized Filename"] ++ e0)).map
              Prod.snd).getD []) :: tl2.map Prod.snd) =
            st.metadata.map Prod.snd := by
          rw [hsm]
          simp
        rw [hform, List.getElem?_map, hexact,
          loopAppends_nodup env md k hnodup ⟨v, List.mem_iff_getElem?.mpr ⟨i, hmi⟩⟩]
        rfl

/-- Witness for the amended C7: a completed concrete run with one
processed and one missing file.  The processed file's row carries
exactly the one derived value, and the missing file's row is emitted
exactly as stored, with no value in the derived column. -/
theorem c7_witness :
    ([["URL", "Tokenized Filename"], ["x1.html", "t-1.txt"],
        ["x2.html"]] : List (List String))[1]? =
      some (["x1.html"] ++ ["t-1.txt"]) ∧
    ([["URL", "Tokenized Filename"], ["x1.html", "t-1.txt"],
        ["x2.html"]] : List (List String))[2]? =
      some (["x2.html"] ++ ([] : List String)) :=
  ⟨(c7_serialization_order envOneGood "x" "URL" ["URL"] [["x1.html"], ["x2.html"]]
      [("header", ["URL", "Tokenized Filename"]), ("1.html", ["x1.html"]),
        ("2.html", ["x2.html"])]
      [["URL", "Tokenized Filename"], ["x1.html", "t-1.txt"], ["x2.html"]]
      [("t-1.txt", "hi")] rfl rfl).2 1 "1.html" ["x1.html"] rfl,
   (c7_serialization_order envOneGood "x" "URL" ["URL"] [["x1.html"], ["x2.html"]]
      [("header", ["URL", "Tokenized Filename"]), ("1.html", ["x1.html"]),
        ("2.html", ["x2.html"])]
      [["URL", "Tokenized Filename"], ["x1.html", "t-1.txt"], ["x2.html"]]
      [("t-1.txt", "hi")] rfl rfl).2 2 "2.html" ["x2.html"] rfl⟩

theorem init_rows_mem_iff (u : String) (col : Nat) :
    ∀ rows acc md, init_rows u col rows acc = .ok md →
      ∀ k : String, (∃ r, (k, r) ∈ md) ↔
        (∃ r, (k, r) ∈ acc) ∨ ∃ row ∈ rows, rowFid u col row = some k := by
  intro rows
  induction rows with
  | nil =>
    intro acc md h k
    unfold init_rows at h
    cases h
    simp
  | cons row rest ih =>
    intro acc md h k
    unfold init_rows at h
    split at h
    next => cases h
    next url heq =>
      by_cases hc : pyContains u url = true
      · rw [if_pos hc] at h
        have hrow : rowFid u col row = some (fileIdOf u url) := by
          simp only [rowFid]
          rw [heq]
          simp [hc]
        by_cases hin : acc.any (fun p => p.1 == fileIdOf u url) = true
        · rw [if_pos hin] at h
          rw [ih acc md h k, List.exists_mem_cons_iff, hrow]
          by_cases hk : fileIdOf u url = k
          · subst hk
            have hex : ∃ r, (fileIdOf u url, r) ∈ acc := by
              obtain ⟨p, hpmem, hpeq⟩ := List.any_eq_true.mp hin
              have hp1 : p.1 = fileIdOf u url := by simpa using hpeq
              exact ⟨p.2, by rw [← hp1]; simpa using hpmem⟩
            tauto
          · have hnk : ¬ (some (fileIdOf u url) = some k) := by simpa using hk
            tauto
        · rw [if_neg hin] at h
          rw [ih (acc ++ [(fileIdOf u url, row)]) md h k,
            List.exists_mem_cons_iff, hrow]
          constructor
          · rintro (⟨r, hr⟩ | hrest)
            · rcases List.mem_append.mp hr with hr2 | hr2
              · exact Or.inl ⟨r, hr2⟩
              · simp only [List.mem_singleton] at hr2
                have hk2 : k = fileIdOf u url := congrArg Prod.fst hr2
                exact Or.inr (Or.inl (by rw [hk2]))
            · exact Or.inr (Or.inr hrest)
          · rintro (⟨r, hr⟩ | hsome | hrest)
            · exact Or.inl ⟨r, List.mem_append.mpr (Or.inl hr)⟩
            · have hk2 : fileIdOf u url = k := by simpa using hsome
              exact Or.inl ⟨row, List.mem_append.mpr (Or.inr (by simp [hk2]))⟩
            · exact Or.inr hrest
      · rw [if_neg hc] at h
        have hrow : rowFid u col row = none := by
          simp only [rowFid]
          rw [heq]
          simp [hc]
        rw [ih acc md h k, List.exists_mem_cons_iff, hrow]
        simp

theorem init_rows_first (u : String) (col : Nat) :
    ∀ rows acc md, init_rows u col rows acc = .ok md →
      ∀ (k : String) (r : List String), (k, r) ∈ md →
        (k, r) ∈ acc ∨
        (acc.any (fun p => p.1 == k) = false ∧
          ∃ pre post, rows = pre ++ r :: post ∧ rowFid u col r = some k ∧
            ∀ row ∈ pre, rowFid u col row ≠ some k) := by
  intro rows
  induction rows with
  | nil =>
    intro acc md h k r hm
    unfold init_rows at h
    cases h
    exact Or.inl hm
  | cons row rest ih =>
    intro acc md h k r hm
    unfold init_rows at h
    split at h
    next => cases h
    next url heq =>
      by_cases hc : pyContains u url = true
      · rw [if_pos hc] at h
        have hrow : rowFid u col row = some (fileIdOf u url) := by
          simp only [rowFid]
          rw [heq]
          simp [hc]
        by_cases hin : acc.any (fun p => p.1 == fileIdOf u url) = true
        · rw [if_pos hin] at h
          rcases ih acc md h k r hm with hacc | ⟨hany, pre, post, hsplit, hfid, hpre⟩
          · exact Or.inl hacc
          · refine Or.inr ⟨hany, row :: pre, post, by rw [hsplit]; simp, hfid, ?_⟩
            intro row2 hrow2
            rcases List.mem_cons.mp hrow2 with he | he
            · subst he
              rw [hrow]
              intro hcontra
              have hkfid : fileIdOf u url = k := by simpa using hcontra
              rw [hkfid] at hin
              rw [hany] at hin
              cases hin
            · exact hpre row2 he
        · rw [if_neg hin] at h
          rcases ih _ md h k r hm with hacc2 | ⟨hany2, pre, post, hsplit, hfid, hpre⟩
          · rcases List.mem_append.mp hacc2 with ha | ha
            · exact Or.inl ha
            · simp only [List.mem_singleton] at ha
              have hk2 : k = fileIdOf u url := congrArg Prod.fst ha
              have hr2 : r = row := congrArg Prod.snd ha
              refine Or.inr ⟨?_, [], rest, by rw [hr2]; rfl, by rw [hr2, hrow, hk2], by simp⟩
              rw [hk2]
              exact Bool.eq_false_iff.mpr hin
          · refine Or.inr ⟨?_, row :: pre, post, by rw [hsplit]; simp, hfid, ?_⟩
            · simp only [List.any_append] at hany2
              exact (Bool.or_eq_false_iff.mp hany2).1
            · intro row2 hrow2
              rcases List.mem_cons.mp hrow2 with he | he
              · subst he
                rw [hrow]
                intro hcontra
                have hkfid : fileIdOf u url = k := by simpa using hcontra
                simp only [List.any_append] at hany2
                have h2 := (Bool.or_eq_false_iff.mp hany2).2
                simp only [List.any_cons, List.any_nil, Bool.or_false] at h2
                rw [hkfid] at h2
                simp at h2
              · exact hpre row2 he
      · rw [if_neg hc] at h
        have hrow : rowFid u col row = none := by
          simp only [rowFid]
          rw [heq]
          simp [hc]
        rcases ih acc md h k r hm with hacc | ⟨hany, pre, post, hsplit, hfid, hpre⟩
        · exact Or.inl hacc
        · refine Or.inr ⟨hany, row :: pre, post, by rw [hsplit]; simp, hfid, ?_⟩
          intro row2 hrow2
          rcases List.mem_cons.mp hrow2 with he | he
          · subst he
            rw [hrow]
            simp
          · exact hpre row2 he

/-- Claim C8 (amended): for every successfully built index, the keys are
unique, the header entry is separate, and a non-header key is present
exactly when some data row derives it (origin column contains the
prefix); the stored row is the first row deriving that key.  The single
amendment over the original claim is the exclusion of the literal key
`header`: a row whose computed FileID is the string `header` collides
with the reserved header entry and is silently discarded
(see the counterexample). -/
theorem c8_index_keys (u c : String) (hdr : List String)
    (rows : List (List String)) (col : Nat)
    (md : List (String × List String))
    (hcol : hdr.findIdx? (fun s => s == c) = some col)
    (hok : init_metadata u c (hdr :: rows) = .ok md) :
    (md.map Prod.fst).Nodup ∧
    (∀ k : String, k ≠ "header" →
      ((∃ r, (k, r) ∈ md) ↔ ∃ row ∈ rows, rowFid u col row = some k)) ∧
    (∀ (k : String) (r : List String), k ≠ "header" → (k, r) ∈ md →
      ∃ pre post, rows = pre ++ r :: post ∧ rowFid u col r = some k ∧
        ∀ row ∈ pre, rowFid u col row ≠ some k) := by
  unfold init_metadata at hok
  simp only [hcol] at hok
  refine ⟨?_, ?_, ?_⟩
  · exact init_rows_nodup u col rows _ md (by simp) hok
  · intro k hk
    rw [init_rows_mem_iff u col rows _ md hok k]
    constructor
    · rintro (⟨r, hr⟩ | h2)
      · simp only [List.mem_singleton] at hr
        exact absurd (congrArg Prod.fst hr) hk
      · exact h2
    · intro h2
      exact Or.inr h2
  · intro k r hk hm
    rcases init_rows_first u col rows _ md hok k r hm with hacc | ⟨-, pre, post, hsplit, hfid, hpre⟩
    · simp only [List.mem_singleton] at hacc
      exact absurd (congrArg Prod.fst hacc) hk
    · exact ⟨pre, post, hsplit, hfid, hpre⟩

/-- Witness for the amended C8: on a concrete table the built index has
unique keys. -/
theorem c8_witness :
    (([("header", ["URL", "Tokenized Filename"]),
       ("q.html", ["xq.html"])] : List (String × List String)).map Prod.fst).Nodup :=
  (c8_index_keys "x" "URL" ["URL"] [["xq.html"]] 0
    [("header", ["URL", "Tokenized Filename"]), ("q.html", ["xq.html"])] rfl rfl).1

theorem dropWhile_append_of_all {α : Type} (q : α → Bool) :
    ∀ (l1 l2 : List α), (∀ x ∈ l1, q x = true) →
      List.dropWhile q (l1 ++ l2) = List.dropWhile q l2 := by
  intro l1
  induction l1 with
  | nil => intro l2 h; rfl
  | cons a t ih =>
    intro l2 hall
    rw [List.cons_append, List.dropWhile_cons_of_pos (hall a (by simp))]
    exact ih l2 (fun x hx => hall x (by simp [hx]))

/-- Claim C2 (amended): the FileID is the origin URL with every leading
character drawn from the character set of the prefix removed (`lstrip`
semantics), not the remainder after the prefix.  When the character
immediately after `prefix ++ "/"` does not occur in the prefix - as for
the digit-initial card paths of the real corpus - the FileID equals the
remainder with its leading path separator also removed. -/
theorem c2_fileid_lstrip (p rest : String) (ch : Char)
    (hslash : '/' ∈ p.data) (hch : ch ∉ p.data)
    (hhead : rest.data.head? = some ch) :
    fileIdOf p (p ++ "/" ++ rest) = rest := by
  obtain ⟨cs, hcs⟩ : ∃ cs, rest.data = ch :: cs := by
    cases hr : rest.data with
    | nil => rw [hr] at hhead; cases hhead
    | cons a l =>
      rw [hr] at hhead
      have ha : a = ch := by simpa using hhead
      exact ⟨l, by rw [ha]⟩
  unfold fileIdOf pyLstrip
  rw [String.data_append, String.data_append]
  have hmid : ("/" : String).data ++ rest.data = '/' :: ch :: cs := by
    rw [hcs]
    rfl
  rw [List.append_assoc, hmid,
    dropWhile_append_of_all _ p.data ('/' :: ch :: cs)
      (fun x hx => by simpa using hx),
    List.dropWhile_cons_of_pos (by simpa using hslash),
    List.dropWhile_cons_of_neg (by simpa using hch)]
  cases rest with
  | mk l =>
    simp only at hcs
    rw [hcs]

/-- Witness for the amended C2: the end-to-end scenario input of the
claim, `https://example.org/cards/000123/files/foo.html` with prefix
`https://example.org/cards`, derives FileID `000123/files/foo.html`. -/
theorem c2_witness :
    fileIdOf "https://example.org/cards"
      ("https://example.org/cards" ++ "/" ++ "000123/files/foo.html") =
      "000123/files/foo.html" :=
  c2_fileid_lstrip "https://example.org/cards" "000123/files/foo.html" '0'
    (by decide) (by decide) (by decide)

